import Mathlib

/-!
Shallow embedding of the maze generator (`src/main.rs`, `src/seg.rs`) and
proofs about its specification claims.

Modelling conventions:
* `f64` arithmetic is modelled by exact real arithmetic (`ℝ`).  The Rust
  code divides by vector lengths that may be zero (producing NaN); in `ℝ`
  Lean's convention `x / 0 = 0` applies, and `atan2` is modelled by
  `Complex.arg` (with `arg 0 = 0`, matching `f64::atan2(0.0, 0.0) = 0`).
  Every concrete input used in a counterexample below was chosen so that
  the Rust floating-point run and this real-number model take the same
  branches.
* `HashSet` becomes `Finset`, `Vec` becomes `List`.
* the pseudo-random source (`rand::Rng`) is a parameter: a state type `G`
  together with a shuffle function `G → List Node → List Node × G`;
  theorems that need it assume the shuffle returns a permutation.
* the wall-clock budget of `gen_nodes_random` and the unbounded loops of
  `dfs`/`bfs`/`gen_nodes_spiral` are modelled by an explicit draw list /
  fuel parameter; all invariants are proved for every fuel value.
-/

namespace Maze

open scoped Classical

noncomputable section

/-- Model of `vector2d::Vector2D<f64>` (alias `V2` in `main.rs`). -/
structure V2 where
  x : ℝ
  y : ℝ

namespace V2

instance : Add V2 := ⟨fun a b => ⟨a.x + b.x, a.y + b.y⟩⟩
instance : Sub V2 := ⟨fun a b => ⟨a.x - b.x, a.y - b.y⟩⟩
instance : HMul V2 ℝ V2 := ⟨fun a t => ⟨a.x * t, a.y * t⟩⟩

/-- Rust `Vector2D::length_squared`: `x * x + y * y`. -/
def length_squared (v : V2) : ℝ := v.x * v.x + v.y * v.y

/-- Rust `Vector2D::length`: square root of `length_squared`. -/
def length (v : V2) : ℝ := Real.sqrt v.length_squared

/-- Rust `Vector2D::normalise`: componentwise division by the length
(the zero vector maps to the zero vector under the `x / 0 = 0` convention). -/
def normalise (v : V2) : V2 := ⟨v.x / v.length, v.y / v.length⟩

/-- Rust `Vector2D::angle`: `self.y.atan2(self.x)`, modelled by the argument of
the complex number `x + y*I`. -/
def angle (v : V2) : ℝ := Complex.arg ⟨v.x, v.y⟩

/-- Rust `Vector2D::lerp`: `self + ((other - self) * alpha)`. -/
def lerp (a b : V2) (t : ℝ) : V2 := a + (b - a) * t

end V2

/-! Configuration constants from `main.rs`. -/

/-- Constant `MAZE_RADIUS`. -/
def MAZE_RADIUS : ℝ := 500.0
/-- Constant `TUBE_RADIUS`. -/
def TUBE_RADIUS : ℝ := 0.005 * MAZE_RADIUS
/-- Constant `MIN_SPACING`. -/
def MIN_SPACING : ℝ := TUBE_RADIUS * 3.5
/-- Constant `TUBE_SHRINK`. -/
def TUBE_SHRINK : ℝ := 0.15
/-- Constant `std::f64::consts::TAU`. -/
def TAU : ℝ := 2 * Real.pi

/-! Embedding of `seg.rs`. -/

/-- Function `cross` of `seg.rs`. -/
def cross (a b : V2) : ℝ := a.x * b.y - a.y * b.x

/-- Function `orient` of `seg.rs`. -/
def orient (a b c : V2) : ℝ := cross (b - a) (c - a)

/-- Function `shrink` of `seg.rs`: pull both endpoints towards the midpoint,
`(lerp mid a scale, lerp mid b scale)`. -/
def shrink (p : V2 × V2) (scale : ℝ) : V2 × V2 :=
  let mid := (p.1 + p.2) * (0.5 : ℝ)
  (V2.lerp mid p.1 scale, V2.lerp mid p.2 scale)

/-- Function `displace_by` of `seg.rs`: displace a segment by the direction `b - a`
normalised, rotated by `radians`, scaled by `offset`. -/
def displace_by (a b : V2) (radians offset : ℝ) : V2 × V2 :=
  let d := (b - a).normalise
  let cr := Real.cos radians
  let sr := Real.sin radians
  let ab_norm : V2 := (⟨d.x * cr - d.y * sr, d.x * sr + d.y * cr⟩ : V2) * offset
  (a + ab_norm, b + ab_norm)

/-- Function `intersection` of `seg.rs`: proper segment crossing via the signs of four
orientation tests. -/
def intersection (a b c d : V2) : Prop :=
  let oa := orient c d a
  let ob := orient c d b
  let oc := orient a b c
  let od := orient a b d
  oa * ob < 0 ∧ oc * od < 0

/-- Function `intersection_with_width` of `seg.rs`: the first segment is shrunk by the fixed
factor `0.9`; each segment gets two displaced copies (shrunk by
`shrink_factor` after displacement); the oracle reports a crossing if any of
the 3×3 pairs properly intersects. -/
def intersection_with_width (a b c d : V2) (width shrink_factor : ℝ) : Prop :=
  let p := shrink (a, b) 0.9
  let a := p.1
  let b := p.2
  let ab1 := shrink (displace_by a b (TAU / 4) width) shrink_factor
  let ab2 := shrink (displace_by a b (-(TAU / 4)) width) shrink_factor
  let cd1 := shrink (displace_by c d (TAU / 4) width) shrink_factor
  let cd2 := shrink (displace_by c d (-(TAU / 4)) width) shrink_factor
  ∃ pq ∈ [(a, b), ab1, ab2], ∃ rs ∈ [(c, d), cd1, cd2],
    intersection pq.1 pq.2 rs.1 rs.2

/-! Embedding of the core of `main.rs`. -/

/-- Type `Node`: a point with a stable integer identity. -/
structure Node where
  point : V2
  index : ℕ

/-- Type `Edge`: the pair of node identities as stored by the builder
(`Edge(pub Index, pub Index)` with derived equality/hash). -/
structure Edge where
  fst : ℕ
  snd : ℕ
deriving DecidableEq

/-- Comparator used by `get_nearest_k`: squared distance to the query point
(`a_dist.partial_cmp(&b_dist)` under a total order on non-NaN floats). -/
def distLe (cur : V2) (a b : Node) : Prop :=
  (a.point - cur).length_squared ≤ (b.point - cur).length_squared

/-- Function `get_nearest_k`: stable sort of the node list by squared distance to
`cur`, truncated to `k` elements.  Rust's `sort_by` is a stable sort, so any
stable sorting algorithm computes the same function; we use insertion sort
(which is stable for a non-strict `≤` comparator). -/
def get_nearest_k (nodes : List Node) (cur : Node) (k : ℕ) : List Node :=
  (List.insertionSort (distLe cur.point) nodes).take k

/-- Function `radian_diff`: absolute angular difference after wrapping into
`(-π, π]`. -/
def radian_diff (a b : ℝ) : ℝ :=
  let d := a - b
  let d' := if d > Real.pi then d - TAU else if d < -Real.pi then d + TAU else d
  |d'|

/-- Node lookup `nodes[i]` (Rust indexes the node slice by node identity;
generators maintain `index = position`).  Out-of-range access, which would
panic in Rust, yields a default node. -/
def nodeAt (nodes : List Node) (i : ℕ) : Node := nodes.getD i ⟨⟨0, 0⟩, 0⟩

/-- Function `edge_intersects`: whether the candidate edge crosses any accepted edge,
via the width-aware oracle. -/
def edge_intersects (edge : Edge) (edges : Finset Edge) (nodes : List Node) : Prop :=
  ∃ e ∈ edges,
    intersection_with_width (nodeAt nodes edge.fst).point (nodeAt nodes edge.snd).point
      (nodeAt nodes e.fst).point (nodeAt nodes e.snd).point TUBE_RADIUS TUBE_SHRINK

/-- The mutable state threaded through `dfs`/`bfs`: random source, accepted
edges, visited identities, midpoint registry, max-depth marker. -/
structure DfsState (G : Type) where
  rng : G
  edges : Finset Edge
  visited : Finset ℕ
  midpoints : List V2
  maxDepth : ℕ × ℕ

/-- The acceptance commit shared verbatim by `dfs` (main.rs:294-299) and
`bfs` (main.rs:386-391): update the max-depth marker, append the midpoint,
mark the node visited, record the edge. -/
def record_edge {G : Type} (s : DfsState G) (depth : ℕ) (node : Node)
    (edge : Edge) (midpoint : V2) : DfsState G :=
  { s with
    maxDepth := if depth > s.maxDepth.1 then (depth, node.index) else s.maxDepth
    midpoints := s.midpoints ++ [midpoint]
    visited := insert node.index s.visited
    edges := insert edge s.edges }

/-- Two growth states over possibly different random sources: all
components agree except the random sources, which are related by `R`. -/
def StateRel {G1 G2 : Type} (R : G1 → G2 → Prop)
    (s1 : DfsState G1) (s2 : DfsState G2) : Prop :=
  s1.edges = s2.edges ∧ s1.visited = s2.visited ∧ s1.midpoints = s2.midpoints ∧
  s1.maxDepth = s2.maxDepth ∧ R s1.rng s2.rng

section Traversal

variable {G : Type}

/-- Body of the `for node in nearest_nodes` loop of `dfs`; `rec` is the
recursive call into `dfs` (instantiated with one unit of fuel spent). -/
def dfsLoop (nodes : List Node) (rec : V2 → Node → ℕ → DfsState G → DfsState G)
    (cur_vec_angle : ℝ) (current : Node) (depth : ℕ) :
    List Node → DfsState G → DfsState G
  | [], s => s
  | node :: rest, s =>
    if node.index ∈ s.visited then dfsLoop nodes rec cur_vec_angle current depth rest s
    else
      let edge : Edge := ⟨current.index, node.index⟩
      let edge_vec := (node.point - current.point).normalise
      let diff := radian_diff edge_vec.angle cur_vec_angle
      if diff > Real.pi * 0.6 then dfsLoop nodes rec cur_vec_angle current depth rest s
      else if edge_intersects edge s.edges nodes then
        dfsLoop nodes rec cur_vec_angle current depth rest s
      else
        let midpoint := (node.point + current.point) * (0.5 : ℝ)
        if (∀ m ∈ s.midpoints, (m - midpoint).length > MIN_SPACING * 0.8) ∧
            (∀ n ∈ nodes, n.index = node.index ∨ n.index = current.index ∨
              (n.point - midpoint).length > TUBE_RADIUS * 2.0) then
          let s1 := record_edge s depth node edge midpoint
          let s2 := rec current.point node (depth + 1) s1
          dfsLoop nodes rec cur_vec_angle current depth rest s2
        else dfsLoop nodes rec cur_vec_angle current depth rest s

/-- Function `dfs` (main.rs:258-316), with an explicit fuel bound on the recursion
depth (the Rust recursion is finite because every call site first marks a
fresh node visited). -/
def dfsGo (shuffle : G → List Node → List Node × G) (nodes : List Node) :
    ℕ → V2 → Node → ℕ → DfsState G → DfsState G
  | 0, _, _, _, s => s
  | fuel + 1, prior, current, depth, s =>
    let cur_vec_angle := ((current.point - prior).normalise).angle
    let p := shuffle s.rng (get_nearest_k nodes current 12)
    dfsLoop nodes (dfsGo shuffle nodes fuel) cur_vec_angle current depth p.1
      { s with rng := p.2 }

/-- Type `QueueItem` for the breadth-first variant. -/
structure QueueItem where
  prior : V2
  current : Node
  next : Node
  depth : ℕ

/-- Function `enqueue_nearest`: shuffle the `k` nearest nodes and append a work item
for each of them. -/
def enqueue_nearest (shuffle : G → List Node → List Node × G) (nodes : List Node)
    (g : G) (prior : V2) (current : Node) (k depth : ℕ)
    (queue : List QueueItem) : List QueueItem × G :=
  let p := shuffle g (get_nearest_k nodes current k)
  (queue ++ p.1.map (fun node => ⟨prior, current, node, depth⟩), p.2)

/-- Loop `while let Some(...) = queue.get(0)` of `bfs`, fuelled. -/
def bfsLoop (shuffle : G → List Node → List Node × G) (nodes : List Node) :
    ℕ → List QueueItem → DfsState G → DfsState G
  | 0, _, s => s
  | _ + 1, [], s => s
  | fuel + 1, item :: rest, s =>
    let cur_vec_angle := ((item.current.point - item.prior).normalise).angle
    if item.next.index ∈ s.visited then bfsLoop shuffle nodes fuel rest s
    else
      let edge : Edge := ⟨item.current.index, item.next.index⟩
      let edge_vec := (item.next.point - item.current.point).normalise
      let diff := radian_diff edge_vec.angle cur_vec_angle
      if diff > Real.pi * 0.8 then bfsLoop shuffle nodes fuel rest s
      else if edge_intersects edge s.edges nodes then bfsLoop shuffle nodes fuel rest s
      else
        let midpoint := (item.next.point + item.current.point) * (0.5 : ℝ)
        if (∀ m ∈ s.midpoints, (m - midpoint).length > MIN_SPACING * 0.8) ∧
            (∀ n ∈ nodes, (n.point - midpoint).length > TUBE_RADIUS * 2.1) then
          let s1 := record_edge s item.depth item.next edge midpoint
          let q := enqueue_nearest shuffle nodes s1.rng item.current.point item.next 12
            (item.depth + 1) rest
          bfsLoop shuffle nodes fuel q.1 { s1 with rng := q.2 }
        else bfsLoop shuffle nodes fuel rest s

/-- Function `bfs` (main.rs:347-396): seed the queue with the nearest neighbours of
the start node at depth 1, then drain it. -/
def bfs (shuffle : G → List Node → List Node × G) (nodes : List Node)
    (fuel : ℕ) (prior : V2) (current : Node) (s : DfsState G) : DfsState G :=
  let q := enqueue_nearest shuffle nodes s.rng prior current 12 1 []
  bfsLoop shuffle nodes fuel q.1 { s with rng := q.2 }

end Traversal

/-! The three point generators. -/

/-- One iteration of the sampling loop of `gen_nodes_random`, for one pair of
uniform draws in `[0,1)` (the wall-clock budget is modelled by the caller
supplying a finite draw list). -/
def gen_nodes_random_step (nodes : List Node) (draw : ℝ × ℝ) : List Node :=
  let radians := draw.1 * TAU
  let radius := draw.2 * (MAZE_RADIUS - TUBE_RADIUS * Real.sqrt 2 * 2)
  let point : V2 := ⟨Real.cos radians * radius, Real.sin radians * radius⟩
  if ∀ n ∈ nodes, (n.point - point).length > MIN_SPACING then
    nodes ++ [⟨point, nodes.length⟩]
  else nodes

/-- Function `gen_nodes_random` (main.rs:50-75). -/
def gen_nodes_random (draws : List (ℝ × ℝ)) : List Node :=
  draws.foldl gen_nodes_random_step []

/-- The loop of `gen_nodes_spiral` (main.rs:77-100), fuelled (the Rust loop
terminates once the spiral radius exceeds the disc bound). -/
def gen_nodes_spiral_go : ℕ → ℝ → ℝ → ℕ → List Node → List Node
  | 0, _, _, _, nodes => nodes
  | fuel + 1, phi, radius, index, nodes =>
    let radius' := radius + 0.1
    let phi' := phi + 0.1
    let point : V2 := ⟨Real.cos phi' * radius', Real.sin phi' * radius'⟩
    let acc :=
      if ∀ n ∈ nodes, (n.point - point).length > MIN_SPACING then
        (nodes ++ [⟨point, index⟩], index + 1)
      else (nodes, index)
    if point.length > MAZE_RADIUS - TUBE_RADIUS * Real.sqrt 2 * 2 then acc.1
    else gen_nodes_spiral_go fuel phi' radius' acc.2 acc.1

/-- Function `gen_nodes_spiral`. -/
def gen_nodes_spiral (fuel : ℕ) : List Node := gen_nodes_spiral_go fuel 0 0 0 []

/-- Integer grid coordinates `-MAZE_RADIUS as i64 ..= MAZE_RADIUS as i64`
(that is, `-500..=500`). -/
def grid_coords : List ℤ := (List.range 1001).map (fun i => (i : ℤ) - 500)

/-- Body of the inner loop of `gen_nodes_grid` for one `(y, x)` pair. -/
def gen_nodes_grid_step (nodes : List Node) (y x : ℤ) : List Node :=
  let point : V2 := ⟨(x : ℝ), (y : ℝ)⟩
  if point.length > MAZE_RADIUS - TUBE_RADIUS * Real.sqrt 2 * 2 then nodes
  else if ∀ n ∈ nodes, (n.point - point).length > MIN_SPACING then
    nodes ++ [⟨point, nodes.length⟩]
  else nodes

/-- Function `gen_nodes_grid` (main.rs:102-128). -/
def gen_nodes_grid : List Node :=
  grid_coords.foldl
    (fun nodes y => grid_coords.foldl (fun nodes x => gen_nodes_grid_step nodes y x) nodes)
    []

/-! Spec-side definitions, written from the specification's wording, for
comparison against the code-side definitions above. -/

/-- Two points `u`, `v` lie on strictly opposite sides of the line through
`p` and `q` (the phrasing used by the spec for the orientation condition). -/
def strictlyOppositeSides (p q u v : V2) : Prop :=
  (orient p q u < 0 ∧ 0 < orient p q v) ∨ (0 < orient p q u ∧ orient p q v < 0)

/-- A quarter-turn of a vector: rotation by 90 degrees, `(x, y) ↦ (-y, x)`. -/
def quarterTurn (v : V2) : V2 := ⟨-v.y, v.x⟩

/-- The width-aware oracle as the amended specification describes it: the
first segment is shrunk towards its midpoint by the fixed factor `0.9` (the
second is not); each base segment is displaced by plus and minus a
quarter-turn of its unit direction scaled by `width`, and each displaced
copy is then shrunk towards its own midpoint by `shrink_factor`; the oracle
holds iff one of the 3×3 pairs properly intersects. -/
def intersection_with_width_spec (a b c d : V2) (width shrink_factor : ℝ) : Prop :=
  let ab := shrink (a, b) 0.9
  let u := (ab.2 - ab.1).normalise
  let offAb := quarterTurn u * width
  let abPlus := shrink (ab.1 + offAb, ab.2 + offAb) shrink_factor
  let abMinus := shrink (ab.1 - offAb, ab.2 - offAb) shrink_factor
  let v := (d - c).normalise
  let offCd := quarterTurn v * width
  let cdPlus := shrink (c + offCd, d + offCd) shrink_factor
  let cdMinus := shrink (c - offCd, d - offCd) shrink_factor
  ∃ pq ∈ [ab, abPlus, abMinus], ∃ rs ∈ [(c, d), cdPlus, cdMinus],
    intersection pq.1 pq.2 rs.1 rs.2

/-! Concrete instances used by the counterexamples and witnesses. -/

/-- A degenerate random source whose shuffle is the identity permutation. -/
def idShuffle : Unit → List Node → List Node × Unit := fun g l => (l, g)

/-- Concrete node at `(20, 0)` with identity `0`. -/
def exN0 : Node := ⟨⟨20, 0⟩, 0⟩

/-- Concrete node at the origin with identity `1`. -/
def exN1 : Node := ⟨⟨0, 0⟩, 1⟩

/-- Concrete two-node set: identity `0` at `(20, 0)`, identity `1` at the
origin. -/
def exNodes : List Node := [exN0, exN1]

/-- The empty initial state: no edges, nothing visited, no midpoints,
max-depth marker `(0, 0)` (as in `main`). -/
def exState0 : DfsState Unit := ⟨(), ∅, ∅, [], (0, 0)⟩

end

/-! # Theorems -/

section Lemmas

open V2

namespace V2

@[simp] theorem add_x (a b : V2) : (a + b).x = a.x + b.x := rfl

@[simp] theorem add_y (a b : V2) : (a + b).y = a.y + b.y := rfl

@[simp] theorem sub_x (a b : V2) : (a - b).x = a.x - b.x := rfl

@[simp] theorem sub_y (a b : V2) : (a - b).y = a.y - b.y := rfl

@[simp] theorem smul_x (a : V2) (t : ℝ) : (a * t).x = a.x * t := rfl

@[simp] theorem smul_y (a : V2) (t : ℝ) : (a * t).y = a.y * t := rfl

@[ext] theorem ext {a b : V2} (hx : a.x = b.x) (hy : a.y = b.y) : a = b := by
  cases a; cases b; cases hx; cases hy; rfl

theorem length_squared_nonneg (v : V2) : 0 ≤ v.length_squared :=
  add_nonneg (mul_self_nonneg _) (mul_self_nonneg _)

theorem lt_length {v : V2} {c : ℝ} (hc : 0 ≤ c)
    (h : c * c < v.length_squared) : c < v.length := by
  rw [length, Real.lt_sqrt hc, sq]
  exact h

@[simp] theorem length_squared_mk (x y : ℝ) :
    length_squared ⟨x, y⟩ = x * x + y * y := rfl

theorem sub_self_eq_zero (v : V2) : v - v = ⟨0, 0⟩ := by ext <;> simp

@[simp] theorem normalise_zero : normalise ⟨0, 0⟩ = ⟨0, 0⟩ := by
  simp [normalise]

theorem length_mk_pos_x {t : ℝ} (ht : 0 ≤ t) : length ⟨t, 0⟩ = t := by
  simp only [length, length_squared_mk, mul_zero, add_zero]
  exact Real.sqrt_mul_self ht

theorem normalise_pos_x {t : ℝ} (ht : 0 < t) : normalise ⟨t, 0⟩ = ⟨1, 0⟩ := by
  simp only [normalise, length_mk_pos_x ht.le]
  exact ext (div_self ht.ne') (zero_div t)

theorem angle_unit_x : angle ⟨1, 0⟩ = 0 := by
  have h : (⟨1, 0⟩ : ℂ) = (1 : ℂ) := Complex.ext rfl rfl
  simp only [angle, h, Complex.arg_one]

theorem angle_zero : angle ⟨0, 0⟩ = 0 := by
  have h : (⟨0, 0⟩ : ℂ) = (0 : ℂ) := Complex.ext rfl rfl
  simp only [angle, h, Complex.arg_zero]

end V2

theorem TUBE_RADIUS_eq : TUBE_RADIUS = 2.5 := by
  norm_num [TUBE_RADIUS, MAZE_RADIUS]

theorem MIN_SPACING_eq : MIN_SPACING = 8.75 := by
  norm_num [MIN_SPACING, TUBE_RADIUS_eq]

theorem radian_diff_zero : radian_diff 0 0 = 0 := by
  have hπ := Real.pi_pos
  simp only [radian_diff, sub_zero]
  rw [if_neg (by linarith), if_neg (by linarith), abs_zero]

/-! Lemmas about `seg.rs`. -/

theorem tau_div_four : TAU / 4 = Real.pi / 2 := by
  rw [TAU]; ring

theorem displace_by_quarter (x y : V2) (w : ℝ) :
    displace_by x y (TAU / 4) w =
      (x + quarterTurn ((y - x).normalise) * w,
       y + quarterTurn ((y - x).normalise) * w) := by
  simp only [displace_by, quarterTurn, tau_div_four, Real.cos_pi_div_two,
    Real.sin_pi_div_two, Prod.mk.injEq]
  constructor <;> (ext <;> simp <;> ring)

theorem displace_by_neg_quarter (x y : V2) (w : ℝ) :
    displace_by x y (-(TAU / 4)) w =
      (x - quarterTurn ((y - x).normalise) * w,
       y - quarterTurn ((y - x).normalise) * w) := by
  simp only [displace_by, quarterTurn, tau_div_four, Real.cos_neg, Real.sin_neg,
    Real.cos_pi_div_two, Real.sin_pi_div_two, Prod.mk.injEq]
  constructor <;> (ext <;> simp <;> ring)

theorem displace_by_zero_offset (x y : V2) (radians : ℝ) :
    displace_by x y radians 0 = (x, y) := by
  simp only [displace_by, Prod.mk.injEq]
  constructor <;> (ext <;> simp)

theorem shrink_one (x y : V2) : shrink (x, y) 1 = (x, y) := by
  simp only [shrink, V2.lerp, Prod.mk.injEq]
  constructor <;> (ext <;> simp <;> ring)

/-- C3: `intersection(a, b, c, d)` holds iff `c` and `d` lie on strictly
opposite sides of the line through `a` and `b` and `a` and `b` lie on
strictly opposite sides of the line through `c` and `d`; hence collinear
disjoint segments `(0,0)-(1,0)` and `(2,0)-(3,0)` do not intersect while
`(0,0)-(1,0)` and `(0.5,1)-(0.5,-1)` do. -/
theorem intersection_characterization :
    (∀ a b c d : V2,
      intersection a b c d ↔
        strictlyOppositeSides a b c d ∧ strictlyOppositeSides c d a b) ∧
    ¬ intersection ⟨0, 0⟩ ⟨1, 0⟩ ⟨2, 0⟩ ⟨3, 0⟩ ∧
    intersection ⟨0, 0⟩ ⟨1, 0⟩ ⟨0.5, 1⟩ ⟨0.5, -1⟩ := by
  refine ⟨fun a b c d => ?_, ?_, ?_⟩
  · simp only [intersection, strictlyOppositeSides]
    rw [mul_neg_iff, mul_neg_iff]
    tauto
  · simp only [intersection, orient, cross, V2.sub_x, V2.sub_y]
    norm_num
  · simp only [intersection, orient, cross, V2.sub_x, V2.sub_y]
    norm_num

/-- C4 (amended): the width-aware oracle shrinks only its first segment by
the fixed factor `0.9`, then builds the two displaced copies of each base
segment (displacement by a quarter-turn of the unit direction scaled by the
width, then shrinking of the displaced copy by the shrink factor), and
reports a crossing iff one of the 3×3 pairs properly intersects.  The
quarter-turn rotations `±TAU/4` are exactly the perpendicular maps
`(x, y) ↦ ∓(-y, x)`. -/
theorem intersection_with_width_matches_spec :
    ∀ a b c d w s, intersection_with_width a b c d w s ↔
      intersection_with_width_spec a b c d w s := by
  intro a b c d w s
  simp only [intersection_with_width, intersection_with_width_spec,
    displace_by_quarter, displace_by_neg_quarter]

/-- C4 counterexample: the width-aware oracle is not symmetric in its two
segment arguments.  With width `0` and shrink factor `1` the oracle reduces
to the plain test between the `0.9`-shrunk first segment and the unshrunk
second segment: the segments `(1.95,-1)-(1.95,1)` and `(0,0)-(2,0)` register
a crossing in one argument order but not in the other. -/
theorem intersection_with_width_not_symmetric :
    intersection_with_width ⟨1.95, -1⟩ ⟨1.95, 1⟩ ⟨0, 0⟩ ⟨2, 0⟩ 0 1 ∧
    ¬ intersection_with_width ⟨0, 0⟩ ⟨2, 0⟩ ⟨1.95, -1⟩ ⟨1.95, 1⟩ 0 1 := by
  constructor
  · simp only [intersection_with_width, displace_by_zero_offset, shrink_one]
    refine ⟨_, List.mem_cons_self _ _, _, List.mem_cons_self _ _, ?_⟩
    simp only [intersection, orient, cross, shrink, V2.lerp, V2.add_x, V2.add_y,
      V2.sub_x, V2.sub_y, V2.smul_x, V2.smul_y]
    norm_num
  · intro hcontra
    simp only [intersection_with_width, displace_by_zero_offset, shrink_one,
      List.mem_cons, List.not_mem_nil, or_false] at hcontra
    obtain ⟨pq, hpq, rs, hrs, hint⟩ := hcontra
    rcases hpq with h1 | h1 | h1 <;> rcases hrs with h2 | h2 | h2 <;>
      subst h1 <;> subst h2 <;> revert hint <;>
      (simp only [intersection, orient, cross, shrink, V2.lerp, V2.add_x, V2.add_y,
        V2.sub_x, V2.sub_y, V2.smul_x, V2.smul_y]; norm_num)

/-! Lemmas about the point generators. -/

theorem foldl_invariant {α σ : Type _} (f : σ → α → σ) (P : σ → Prop)
    (hf : ∀ s a, P s → P (f s a)) : ∀ (l : List α) (s : σ), P s → P (l.foldl f s)
  | [], _, hs => hs
  | a :: l, s, hs => foldl_invariant f P hf l (f s a) (hf s a hs)

theorem spacing_append {nodes : List Node} {point : V2} {i : ℕ}
    (h : nodes.Pairwise (fun m n => (m.point - n.point).length > MIN_SPACING))
    (hall : ∀ n ∈ nodes, (n.point - point).length > MIN_SPACING) :
    (nodes ++ [(⟨point, i⟩ : Node)]).Pairwise
      (fun m n => (m.point - n.point).length > MIN_SPACING) := by
  rw [List.pairwise_append]
  refine ⟨h, List.pairwise_singleton _ _, ?_⟩
  intro a ha b hb
  simp only [List.mem_singleton] at hb
  subst hb
  exact hall a ha

/-- C7: each of the three point generators (time-bounded rejection sampling,
spiral, grid) only ever appends a point whose distance to every previously
accepted point strictly exceeds `MIN_SPACING`, so every produced node list
is pairwise strictly farther apart than `MIN_SPACING`. -/
theorem generators_min_spacing :
    (∀ draws : List (ℝ × ℝ), (gen_nodes_random draws).Pairwise
      (fun m n => (m.point - n.point).length > MIN_SPACING)) ∧
    (∀ fuel : ℕ, (gen_nodes_spiral fuel).Pairwise
      (fun m n => (m.point - n.point).length > MIN_SPACING)) ∧
    gen_nodes_grid.Pairwise (fun m n => (m.point - n.point).length > MIN_SPACING) := by
  have hrand : ∀ (nodes : List Node) (draw : ℝ × ℝ),
      nodes.Pairwise (fun m n => (m.point - n.point).length > MIN_SPACING) →
      (gen_nodes_random_step nodes draw).Pairwise
        (fun m n => (m.point - n.point).length > MIN_SPACING) := by
    intro nodes draw h
    simp only [gen_nodes_random_step]
    split_ifs with hacc
    · exact spacing_append h hacc
    · exact h
  have hgrid : ∀ (nodes : List Node) (y x : ℤ),
      nodes.Pairwise (fun m n => (m.point - n.point).length > MIN_SPACING) →
      (gen_nodes_grid_step nodes y x).Pairwise
        (fun m n => (m.point - n.point).length > MIN_SPACING) := by
    intro nodes y x h
    simp only [gen_nodes_grid_step]
    split_ifs with hin hacc
    · exact h
    · exact spacing_append h hacc
    · exact h
  have hspiral : ∀ (fuel : ℕ) (phi radius : ℝ) (index : ℕ) (nodes : List Node),
      nodes.Pairwise (fun m n => (m.point - n.point).length > MIN_SPACING) →
      (gen_nodes_spiral_go fuel phi radius index nodes).Pairwise
        (fun m n => (m.point - n.point).length > MIN_SPACING) := by
    intro fuel
    induction fuel with
    | zero => intro phi radius index nodes h; simpa [gen_nodes_spiral_go] using h
    | succ n ih =>
      intro phi radius index nodes h
      simp only [gen_nodes_spiral_go]
      split_ifs with hbr hacc hacc
      · exact spacing_append h hacc
      · exact h
      · exact ih _ _ _ _ (spacing_append h hacc)
      · exact ih _ _ _ _ h
  refine ⟨?_, ?_, ?_⟩
  · intro draws
    unfold gen_nodes_random
    exact foldl_invariant _ _ hrand draws [] List.Pairwise.nil
  · intro fuel
    exact hspiral fuel 0 0 0 [] List.Pairwise.nil
  · unfold gen_nodes_grid
    refine foldl_invariant _ _ ?_ grid_coords [] List.Pairwise.nil
    intro nodes y h
    exact foldl_invariant _ _ (fun s x hx => hgrid s y x hx) grid_coords nodes h

/-! Lemmas about `get_nearest_k`. -/

theorem filter_orderedInsert {α : Type _} {r : α → α → Prop} [DecidableRel r]
    {p : α → Bool} (hp : ∀ x y, p x = true → p y = true → r x y) (x : α)
    (l : List α) :
    (List.orderedInsert r x l).filter p =
      if p x = true then x :: l.filter p else l.filter p := by
  induction l with
  | nil =>
    simp only [List.orderedInsert, List.filter_cons, List.filter_nil]
  | cons y l ih =>
    rw [List.orderedInsert]
    by_cases hr : r x y
    · rw [if_pos hr, List.filter_cons]
    · rw [if_neg hr, List.filter_cons, List.filter_cons, ih]
      by_cases hpx : p x = true
      · have hpy : ¬ p y = true := fun hpy => hr (hp x y hpx hpy)
        simp [hpx, hpy]
      · simp [hpx]

theorem filter_insertionSort {α : Type _} {r : α → α → Prop} [DecidableRel r]
    {p : α → Bool} (hp : ∀ x y, p x = true → p y = true → r x y) (l : List α) :
    (List.insertionSort r l).filter p = l.filter p := by
  induction l with
  | nil => rfl
  | cons x l ih =>
    rw [List.insertionSort, filter_orderedInsert hp, ih, List.filter_cons]

/-- C5: `get_nearest_k` returns the `min k N` indexed points of smallest
distance to the query, ordered nearest-first (ties in insertion order): the
result has length `min k N` (so it is shorter than `k` only when fewer than
`k` points are indexed), is sorted by distance to the query, splits the
node list into the chosen points and a remainder that is everywhere at
least as far away, and for every distance value the chosen points at that
distance are an initial run, in original order, of the indexed points at
that distance. -/
theorem get_nearest_k_spec :
    ∀ (nodes : List Node) (cur : Node) (k : ℕ),
      (get_nearest_k nodes cur k).length = min k nodes.length ∧
      ((get_nearest_k nodes cur k).length < k → nodes.length < k) ∧
      (get_nearest_k nodes cur k).Pairwise
        (fun a b => (a.point - cur.point).length ≤ (b.point - cur.point).length) ∧
      (∃ rest, nodes.Perm (get_nearest_k nodes cur k ++ rest) ∧
        ∀ a ∈ get_nearest_k nodes cur k, ∀ b ∈ rest,
          (a.point - cur.point).length ≤ (b.point - cur.point).length) ∧
      ∀ d : ℝ,
        (get_nearest_k nodes cur k).filter
            (fun n => decide ((n.point - cur.point).length = d)) <+:
          nodes.filter (fun n => decide ((n.point - cur.point).length = d)) := by
  intro nodes cur k
  haveI : IsTotal Node (distLe cur.point) := ⟨fun a b => le_total _ _⟩
  haveI : IsTrans Node (distLe cur.point) := ⟨fun _ _ _ h1 h2 => le_trans h1 h2⟩
  have hsorted := List.sorted_insertionSort (distLe cur.point) nodes
  have hlen : (get_nearest_k nodes cur k).length = min k nodes.length := by
    simp [get_nearest_k]
  have hmono : ∀ a b : Node, distLe cur.point a b →
      (a.point - cur.point).length ≤ (b.point - cur.point).length := by
    intro a b h
    exact Real.sqrt_le_sqrt h
  refine ⟨hlen, ?_, ?_, ?_, ?_⟩
  · intro h
    rw [hlen] at h
    by_contra hN
    push_neg at hN
    rw [min_eq_left hN] at h
    exact lt_irrefl k h
  · have h1 : (get_nearest_k nodes cur k).Pairwise (distLe cur.point) :=
      List.Pairwise.sublist (List.take_sublist _ _) hsorted
    exact h1.imp (fun h => hmono _ _ h)
  · refine ⟨(List.insertionSort (distLe cur.point) nodes).drop k, ?_, ?_⟩
    · have h1 := (List.perm_insertionSort (distLe cur.point) nodes).symm
      rwa [← List.take_append_drop k (List.insertionSort (distLe cur.point) nodes)] at h1
    · have hs' := hsorted
      rw [← List.take_append_drop k (List.insertionSort (distLe cur.point) nodes)]
        at hs'
      have hcross := (List.pairwise_append.mp hs').2.2
      intro a ha b hb
      exact hmono _ _ (hcross a ha b hb)
  · intro d
    have hpre : get_nearest_k nodes cur k <+:
        List.insertionSort (distLe cur.point) nodes :=
      ⟨(List.insertionSort (distLe cur.point) nodes).drop k,
        List.take_append_drop k _⟩
    have h2 := hpre.filter (fun n => decide ((n.point - cur.point).length = d))
    have hp : ∀ x y : Node,
        (fun n => decide ((n.point - cur.point).length = d)) x = true →
        (fun n => decide ((n.point - cur.point).length = d)) y = true →
        distLe cur.point x y := by
      intro x y hx hy
      have hx' := of_decide_eq_true hx
      have hy' := of_decide_eq_true hy
      have : (x.point - cur.point).length_squared = (y.point - cur.point).length_squared := by
        have := hx'.trans hy'.symm
        rwa [V2.length, V2.length,
          Real.sqrt_inj (V2.length_squared_nonneg _) (V2.length_squared_nonneg _)] at this
      exact le_of_eq this
    rwa [filter_insertionSort hp] at h2

/-! Infrastructure lemmas about the growth engine. -/

theorem mem_of_mem_get_nearest_k {nodes : List Node} {cur : Node} {k : ℕ} {x : Node}
    (hx : x ∈ get_nearest_k nodes cur k) : x ∈ nodes := by
  have h2 := (List.take_sublist k (List.insertionSort (distLe cur.point) nodes)).subset hx
  exact (List.perm_insertionSort (distLe cur.point) nodes).subset h2

theorem dfsLoop_visited_mono {G : Type} (nodes : List Node)
    (rec : V2 → Node → ℕ → DfsState G → DfsState G)
    (hrec : ∀ pr nd d s, s.visited ⊆ (rec pr nd d s).visited) :
    ∀ (l : List Node) (θ : ℝ) (current : Node) (depth : ℕ) (s : DfsState G),
      s.visited ⊆ (dfsLoop nodes rec θ current depth l s).visited := by
  intro l
  induction l with
  | nil => intro θ current depth s; simp [dfsLoop]
  | cons node rest ih =>
    intro θ current depth s
    simp only [dfsLoop]
    split_ifs with h1 h2 h3 h4
    · exact ih θ current depth s
    · exact ih θ current depth s
    · exact ih θ current depth s
    · refine Finset.Subset.trans ?_ (ih θ current depth _)
      exact Finset.Subset.trans (Finset.subset_insert node.index s.visited)
        (hrec current.point node (depth + 1)
          (record_edge s depth node ⟨current.index, node.index⟩
            ((node.point + current.point) * (0.5 : ℝ))))
    · exact ih θ current depth s

theorem dfsGo_visited_mono {G : Type} (shuffle : G → List Node → List Node × G)
    (nodes : List Node) :
    ∀ (fuel : ℕ) (prior : V2) (current : Node) (depth : ℕ) (s : DfsState G),
      s.visited ⊆ (dfsGo shuffle nodes fuel prior current depth s).visited := by
  intro fuel
  induction fuel with
  | zero => intro _ _ _ s; simp [dfsGo]
  | succ n ih =>
    intro prior current depth s
    simp only [dfsGo]
    exact dfsLoop_visited_mono nodes (dfsGo shuffle nodes n)
      (fun pr nd d s' => ih pr nd d s')
      (shuffle s.rng (get_nearest_k nodes current 12)).1
      ((current.point - prior).normalise).angle current depth
      { s with rng := (shuffle s.rng (get_nearest_k nodes current 12)).2 }

theorem dfsLoop_inv {G : Type} (nodes : List Node)
    (rec : V2 → Node → ℕ → DfsState G → DfsState G) (P : DfsState G → Prop)
    (hrec : ∀ pr nd d s, P s → P (rec pr nd d s))
    (hacc : ∀ (s : DfsState G) (current node : Node) (depth : ℕ),
      node.index ∉ s.visited → P s →
      P (record_edge s depth node ⟨current.index, node.index⟩
          ((node.point + current.point) * (0.5 : ℝ)))) :
    ∀ (l : List Node) (θ : ℝ) (current : Node) (depth : ℕ) (s : DfsState G),
      P s → P (dfsLoop nodes rec θ current depth l s) := by
  intro l
  induction l with
  | nil => intro θ c d s h; simpa [dfsLoop] using h
  | cons node rest ih =>
    intro θ c d s h
    simp only [dfsLoop]
    split_ifs with h1 h2 h3 h4
    · exact ih θ c d s h
    · exact ih θ c d s h
    · exact ih θ c d s h
    · exact ih θ c d _ (hrec _ _ _ _ (hacc s c node d h1 h))
    · exact ih θ c d s h

theorem dfsGo_inv {G : Type} (shuffle : G → List Node → List Node × G)
    (nodes : List Node) (P : DfsState G → Prop)
    (hrng : ∀ (s : DfsState G) (g : G), P s → P { s with rng := g })
    (hacc : ∀ (s : DfsState G) (current node : Node) (depth : ℕ),
      node.index ∉ s.visited → P s →
      P (record_edge s depth node ⟨current.index, node.index⟩
          ((node.point + current.point) * (0.5 : ℝ)))) :
    ∀ (fuel : ℕ) (prior : V2) (current : Node) (depth : ℕ) (s : DfsState G),
      P s → P (dfsGo shuffle nodes fuel prior current depth s) := by
  intro fuel
  induction fuel with
  | zero => intro _ _ _ s h; simpa [dfsGo] using h
  | succ n ih =>
    intro prior current depth s h
    simp only [dfsGo]
    exact dfsLoop_inv nodes _ P (fun pr nd d s' h' => ih pr nd d s' h') hacc _ _ _ _ _
      (hrng s _ h)

theorem dfsLoop_master {G : Type} (nodes : List Node)
    (rec : V2 → Node → ℕ → DfsState G → DfsState G)
    (P : DfsState G → Prop) (Q : Node → DfsState G → Prop)
    (hrecP : ∀ pr nd d s, Q nd s → P s → P (rec pr nd d s))
    (hrecMono : ∀ pr nd d s, s.visited ⊆ (rec pr nd d s).visited)
    (hQmono : ∀ nd (s s' : DfsState G), s.visited ⊆ s'.visited → Q nd s → Q nd s')
    (hacc : ∀ (s : DfsState G) (current node : Node) (depth : ℕ),
      Q current s → node ∈ nodes → node.index ∉ s.visited →
      (∀ m ∈ s.midpoints,
        (m - (node.point + current.point) * (0.5 : ℝ)).length > MIN_SPACING * 0.8) →
      (∀ n ∈ nodes, n.index = node.index ∨ n.index = current.index ∨
        (n.point - (node.point + current.point) * (0.5 : ℝ)).length > TUBE_RADIUS * 2.0) →
      P s →
      P (record_edge s depth node ⟨current.index, node.index⟩
          ((node.point + current.point) * (0.5 : ℝ))) ∧
      Q node (record_edge s depth node ⟨current.index, node.index⟩
          ((node.point + current.point) * (0.5 : ℝ)))) :
    ∀ (l : List Node), (∀ x ∈ l, x ∈ nodes) →
      ∀ (θ : ℝ) (current : Node) (depth : ℕ) (s : DfsState G),
        Q current s → P s → P (dfsLoop nodes rec θ current depth l s) := by
  intro l
  induction l with
  | nil => intro _ θ c d s _ h; simpa [dfsLoop] using h
  | cons node rest ih =>
    intro hl θ c d s hQ hP
    have hrest : ∀ x ∈ rest, x ∈ nodes := fun x hx => hl x (List.mem_cons_of_mem _ hx)
    simp only [dfsLoop]
    split_ifs with h1 h2 h3 h4
    · exact ih hrest θ c d s hQ hP
    · exact ih hrest θ c d s hQ hP
    · exact ih hrest θ c d s hQ hP
    · obtain ⟨hP1, hQ1⟩ :=
        hacc s c node d hQ (hl node (List.mem_cons_self _ _)) h1 h4.1 h4.2 hP
      have hP2 := hrecP c.point node (d + 1) _ hQ1 hP1
      have hQs1 : Q c (record_edge s d node ⟨c.index, node.index⟩
          ((node.point + c.point) * (0.5 : ℝ))) :=
        hQmono c s _ (Finset.subset_insert _ _) hQ
      have hQ2 := hQmono c _ _ (hrecMono c.point node (d + 1) _) hQs1
      exact ih hrest θ c d _ hQ2 hP2
    · exact ih hrest θ c d s hQ hP

theorem dfsGo_master {G : Type} (shuffle : G → List Node → List Node × G)
    (nodes : List Node)
    (hsh : ∀ (g : G) (l : List Node), ((shuffle g l).1).Perm l)
    (P : DfsState G → Prop) (Q : Node → DfsState G → Prop)
    (hrng : ∀ (s : DfsState G) (g : G), P s → P { s with rng := g })
    (hQmono : ∀ nd (s s' : DfsState G), s.visited ⊆ s'.visited → Q nd s → Q nd s')
    (hacc : ∀ (s : DfsState G) (current node : Node) (depth : ℕ),
      Q current s → node ∈ nodes → node.index ∉ s.visited →
      (∀ m ∈ s.midpoints,
        (m - (node.point + current.point) * (0.5 : ℝ)).length > MIN_SPACING * 0.8) →
      (∀ n ∈ nodes, n.index = node.index ∨ n.index = current.index ∨
        (n.point - (node.point + current.point) * (0.5 : ℝ)).length > TUBE_RADIUS * 2.0) →
      P s →
      P (record_edge s depth node ⟨current.index, node.index⟩
          ((node.point + current.point) * (0.5 : ℝ))) ∧
      Q node (record_edge s depth node ⟨current.index, node.index⟩
          ((node.point + current.point) * (0.5 : ℝ)))) :
    ∀ (fuel : ℕ) (prior : V2) (current : Node) (depth : ℕ) (s : DfsState G),
      Q current s → P s → P (dfsGo shuffle nodes fuel prior current depth s) := by
  intro fuel
  induction fuel with
  | zero => intro _ _ _ s _ h; simpa [dfsGo] using h
  | succ n ih =>
    intro prior current depth s hQ hP
    simp only [dfsGo]
    refine dfsLoop_master nodes _ P Q (fun pr nd d s' hq hp => ih pr nd d s' hq hp)
      (fun pr nd d s' => dfsGo_visited_mono shuffle nodes n pr nd d s') hQmono hacc
      _ ?_ _ current depth _ ?_ (hrng s _ hP)
    · intro x hx
      exact mem_of_mem_get_nearest_k ((hsh s.rng _).mem_iff.mp hx)
    · exact hQmono current s _ (fun a ha => ha) hQ

/-- C10: a dfs growth run started with empty edge set, empty visited set and
empty midpoint registry accepts each edge together with exactly one fresh
visited identity and exactly one recorded midpoint, so the three collection
sizes coincide at the end of the run. -/
theorem dfs_counts_equal {G : Type} (shuffle : G → List Node → List Node × G)
    (nodes : List Node) (fuel : ℕ) (prior : V2) (seed : Node) (depth : ℕ)
    (g : G) (mdi : ℕ × ℕ) :
    (dfsGo shuffle nodes fuel prior seed depth ⟨g, ∅, ∅, [], mdi⟩).edges.card =
      (dfsGo shuffle nodes fuel prior seed depth ⟨g, ∅, ∅, [], mdi⟩).visited.card ∧
    (dfsGo shuffle nodes fuel prior seed depth ⟨g, ∅, ∅, [], mdi⟩).midpoints.length =
      (dfsGo shuffle nodes fuel prior seed depth ⟨g, ∅, ∅, [], mdi⟩).visited.card := by
  have h := dfsGo_inv shuffle nodes
    (fun s => s.edges.card = s.visited.card ∧ s.midpoints.length = s.visited.card ∧
      ∀ e ∈ s.edges, e.snd ∈ s.visited)
    (fun s g' hs => hs)
    (fun s current node d h1 hs => by
      obtain ⟨hc, hm, he⟩ := hs
      have hfresh : (⟨current.index, node.index⟩ : Edge) ∉ s.edges := fun hmem =>
        h1 (he _ hmem)
      refine ⟨?_, ?_, ?_⟩
      · show (insert (⟨current.index, node.index⟩ : Edge) s.edges).card =
          (insert node.index s.visited).card
        rw [Finset.card_insert_of_not_mem hfresh, Finset.card_insert_of_not_mem h1, hc]
      · show (s.midpoints ++ [(node.point + current.point) * (0.5 : ℝ)]).length =
          (insert node.index s.visited).card
        rw [List.length_append, Finset.card_insert_of_not_mem h1, hm]
        rfl
      · intro e hemem
        rcases Finset.mem_insert.mp hemem with rfl | hold
        · exact Finset.mem_insert_self _ _
        · exact Finset.mem_insert_of_mem (he e hold))
    fuel prior seed depth ⟨g, ∅, ∅, [], mdi⟩
    (by refine ⟨rfl, rfl, ?_⟩; intro e hemem; simp at hemem)
  exact ⟨h.1, h.2.1⟩

@[simp] theorem record_edge_edges {G : Type} (s : DfsState G) (d : ℕ) (nd : Node)
    (e : Edge) (mp : V2) : (record_edge s d nd e mp).edges = insert e s.edges := rfl

@[simp] theorem record_edge_visited {G : Type} (s : DfsState G) (d : ℕ) (nd : Node)
    (e : Edge) (mp : V2) :
    (record_edge s d nd e mp).visited = insert nd.index s.visited := rfl

@[simp] theorem record_edge_midpoints {G : Type} (s : DfsState G) (d : ℕ) (nd : Node)
    (e : Edge) (mp : V2) :
    (record_edge s d nd e mp).midpoints = s.midpoints ++ [mp] := rfl

@[simp] theorem record_edge_maxDepth {G : Type} (s : DfsState G) (d : ℕ) (nd : Node)
    (e : Edge) (mp : V2) :
    (record_edge s d nd e mp).maxDepth =
      if d > s.maxDepth.1 then (d, nd.index) else s.maxDepth := rfl

@[simp] theorem record_edge_rng {G : Type} (s : DfsState G) (d : ℕ) (nd : Node)
    (e : Edge) (mp : V2) : (record_edge s d nd e mp).rng = s.rng := rfl

/-- C9 (amended): edges are stored uncanonicalized as the ordered pair
`(current node, accepted candidate)`, in traversal direction — possibly
higher identity first.  In a run from an empty state over a node set with
pairwise-distinct identities (as every generator guarantees, assigning the
insertion position as identity) and a seed from the node set, the second
component of every stored edge is the identity that became visited on
acceptance, distinct stored edges have distinct second components, and the
reversal of a stored edge is never also stored (a reversed candidate has
the identical midpoint, already in the registry, so the midpoint-spacing
test rejects it) — hence each unordered pair is stored at most once and in
a single orientation. -/
theorem dfs_edges_traversal_direction {G : Type}
    (shuffle : G → List Node → List Node × G) (nodes : List Node)
    (hsh : ∀ (g : G) (l : List Node), ((shuffle g l).1).Perm l)
    (hnodup : (nodes.map Node.index).Nodup)
    (fuel : ℕ) (prior : V2) (seed : Node) (depth : ℕ) (g : G) (mdi : ℕ × ℕ)
    (hseed : seed ∈ nodes) :
    (∀ e ∈ (dfsGo shuffle nodes fuel prior seed depth ⟨g, ∅, ∅, [], mdi⟩).edges,
      e.snd ∈ (dfsGo shuffle nodes fuel prior seed depth ⟨g, ∅, ∅, [], mdi⟩).visited) ∧
    (∀ e ∈ (dfsGo shuffle nodes fuel prior seed depth ⟨g, ∅, ∅, [], mdi⟩).edges,
      ∀ e' ∈ (dfsGo shuffle nodes fuel prior seed depth ⟨g, ∅, ∅, [], mdi⟩).edges,
        e ≠ e' → e.snd ≠ e'.snd) ∧
    ∀ e ∈ (dfsGo shuffle nodes fuel prior seed depth ⟨g, ∅, ∅, [], mdi⟩).edges,
      ∀ e' ∈ (dfsGo shuffle nodes fuel prior seed depth ⟨g, ∅, ∅, [], mdi⟩).edges,
        e.fst = e'.snd → e.snd = e'.fst → e = e' := by
  have hinj : ∀ a ∈ nodes, ∀ b ∈ nodes, a.index = b.index → a = b := by
    intro a ha b hb hab
    exact List.inj_on_of_nodup_map hnodup ha hb hab
  have h := dfsGo_master shuffle nodes hsh
    (fun s =>
      (∀ e ∈ s.edges, e.snd ∈ s.visited) ∧
      (∀ e ∈ s.edges, ∀ e' ∈ s.edges, e ≠ e' → e.snd ≠ e'.snd) ∧
      (∀ e ∈ s.edges, ∃ a ∈ nodes, ∃ b ∈ nodes, a.index = e.fst ∧ b.index = e.snd ∧
        (b.point + a.point) * (0.5 : ℝ) ∈ s.midpoints) ∧
      ∀ e ∈ s.edges, ∀ e' ∈ s.edges, e.fst = e'.snd → e.snd = e'.fst → e = e')
    (fun nd _ => nd ∈ nodes)
    (fun s g' hs => hs)
    (fun nd s s' _ hq => hq)
    ?_ fuel prior seed depth ⟨g, ∅, ∅, [], mdi⟩ hseed ?_
  · exact ⟨h.1, h.2.1, h.2.2.2⟩
  · intro s current node d hQ hnode h1 hmid _ hP
    obtain ⟨hv, hsndinj, hlink, hrev⟩ := hP
    have hcontra : ∀ e' ∈ s.edges, e'.fst = node.index → e'.snd = current.index →
        False := by
      intro e' he' hf hs2
      obtain ⟨a, ha, b, hb, hai, hbi, hm⟩ := hlink e' he'
      have ha' : a = node := hinj a ha node hnode (by rw [hai, hf])
      have hb' : b = current := hinj b hb current hQ (by rw [hbi, hs2])
      rw [ha', hb'] at hm
      have hfar := hmid _ hm
      have hzero : (current.point + node.point) * (0.5 : ℝ) -
          (node.point + current.point) * (0.5 : ℝ) = (⟨0, 0⟩ : V2) := by
        ext <;> simp <;> ring
      rw [hzero] at hfar
      have hlen0 : (⟨0, 0⟩ : V2).length = 0 := by
        simp [V2.length, V2.length_squared]
      rw [hlen0, MIN_SPACING_eq] at hfar
      norm_num at hfar
    refine ⟨⟨?_, ?_, ?_, ?_⟩, hnode⟩
    · intro e hemem
      rw [record_edge_edges] at hemem
      rw [record_edge_visited]
      rcases Finset.mem_insert.mp hemem with rfl | hold
      · exact Finset.mem_insert_self _ _
      · exact Finset.mem_insert_of_mem (hv e hold)
    · intro e hemem e' hemem' hne
      rw [record_edge_edges] at hemem hemem'
      rcases Finset.mem_insert.mp hemem with rfl | hold
      · rcases Finset.mem_insert.mp hemem' with rfl | hold'
        · exact absurd rfl hne
        · intro hsnd
          have heq : node.index = e'.snd := hsnd
          exact h1 (by rw [heq]; exact hv e' hold')
      · rcases Finset.mem_insert.mp hemem' with rfl | hold'
        · intro hsnd
          have heq : e.snd = node.index := hsnd
          exact h1 (by rw [← heq]; exact hv e hold)
        · exact hsndinj e hold e' hold' hne
    · intro e hemem
      rw [record_edge_edges] at hemem
      rw [record_edge_midpoints]
      rcases Finset.mem_insert.mp hemem with rfl | hold
      · exact ⟨current, hQ, node, hnode, rfl, rfl,
          List.mem_append_right _ (List.mem_singleton.mpr rfl)⟩
      · obtain ⟨a, ha, b, hb, hai, hbi, hm⟩ := hlink e hold
        exact ⟨a, ha, b, hb, hai, hbi, List.mem_append_left _ hm⟩
    · intro e hemem e' hemem'
      rw [record_edge_edges] at hemem hemem'
      rcases Finset.mem_insert.mp hemem with rfl | hold
      · rcases Finset.mem_insert.mp hemem' with rfl | hold'
        · intro _ _
          rfl
        · intro hf hs2
          have hf' : current.index = e'.snd := hf
          have hs2' : node.index = e'.fst := hs2
          exact (hcontra e' hold' hs2'.symm hf'.symm).elim
      · rcases Finset.mem_insert.mp hemem' with rfl | hold'
        · intro hf hs2
          have hf' : e.fst = node.index := hf
          have hs2' : e.snd = current.index := hs2
          exact (hcontra e hold hf' hs2').elim
        · exact hrev e hold e' hold'
  · refine ⟨?_, ?_, ?_, ?_⟩ <;> intro e hemem <;> simp at hemem

/-- Witness for C9 (amended) at a concrete one-node input. -/
theorem dfs_edges_traversal_direction_witness :
    (∀ (g : Unit) (l : List Node), ((idShuffle g l).1).Perm l) ∧
    ([exN0].map Node.index).Nodup ∧
    exN0 ∈ [exN0] ∧
    ((∀ e ∈ (dfsGo idShuffle [exN0] 1 ⟨0, 0⟩ exN0 0 ⟨(), ∅, ∅, [], (0, 0)⟩).edges,
      e.snd ∈ (dfsGo idShuffle [exN0] 1 ⟨0, 0⟩ exN0 0 ⟨(), ∅, ∅, [], (0, 0)⟩).visited) ∧
    (∀ e ∈ (dfsGo idShuffle [exN0] 1 ⟨0, 0⟩ exN0 0 ⟨(), ∅, ∅, [], (0, 0)⟩).edges,
      ∀ e' ∈ (dfsGo idShuffle [exN0] 1 ⟨0, 0⟩ exN0 0 ⟨(), ∅, ∅, [], (0, 0)⟩).edges,
        e ≠ e' → e.snd ≠ e'.snd) ∧
    ∀ e ∈ (dfsGo idShuffle [exN0] 1 ⟨0, 0⟩ exN0 0 ⟨(), ∅, ∅, [], (0, 0)⟩).edges,
      ∀ e' ∈ (dfsGo idShuffle [exN0] 1 ⟨0, 0⟩ exN0 0 ⟨(), ∅, ∅, [], (0, 0)⟩).edges,
        e.fst = e'.snd → e.snd = e'.fst → e = e') :=
  ⟨fun _ l => List.Perm.refl l, by simp, List.mem_singleton.mpr rfl,
   dfs_edges_traversal_direction idShuffle [exN0] (fun _ l => List.Perm.refl l)
     (by simp) 1 ⟨0, 0⟩ exN0 0 () (0, 0) (List.mem_singleton.mpr rfl)⟩

/-- C1 (amended): in a dfs growth run from an empty state whose seed belongs
to the node set, every recorded edge joins identities of nodes in the node
set, and its endpoints are distinct except possibly for a self-loop at the
seed: the seed is never pre-marked visited, so it can accept itself as its
own first candidate, and any stored edge with equal endpoints carries the
seed's identity. -/
theorem dfs_edge_endpoints {G : Type} (shuffle : G → List Node → List Node × G)
    (nodes : List Node) (hsh : ∀ (g : G) (l : List Node), ((shuffle g l).1).Perm l)
    (fuel : ℕ) (prior : V2) (seed : Node) (depth : ℕ) (g : G) (mdi : ℕ × ℕ)
    (hseed : seed ∈ nodes) :
    ∀ e ∈ (dfsGo shuffle nodes fuel prior seed depth ⟨g, ∅, ∅, [], mdi⟩).edges,
      (∃ a ∈ nodes, a.index = e.fst) ∧ (∃ b ∈ nodes, b.index = e.snd) ∧
      (e.fst = e.snd → e.fst = seed.index) := by
  apply dfsGo_master shuffle nodes hsh
    (fun s => ∀ e ∈ s.edges, (∃ a ∈ nodes, a.index = e.fst) ∧
      (∃ b ∈ nodes, b.index = e.snd) ∧ (e.fst = e.snd → e.fst = seed.index))
    (fun nd s => nd ∈ nodes ∧ (nd.index ∈ s.visited ∨ nd.index = seed.index))
    (fun s g' hs => hs)
    (fun nd s s' hsub h => ⟨h.1, h.2.imp (fun hh => hsub hh) id⟩)
    ?_ fuel prior seed depth _ ⟨hseed, Or.inr rfl⟩ ?_
  · intro s current node d hQ hnode h1 _ _ hP
    refine ⟨?_, hnode, Or.inl (by simp)⟩
    intro e hemem
    rw [record_edge_edges] at hemem
    rcases Finset.mem_insert.mp hemem with rfl | hold
    · refine ⟨⟨current, hQ.1, rfl⟩, ⟨node, hnode, rfl⟩, ?_⟩
      intro hfsnd
      have hfsnd' : current.index = node.index := hfsnd
      rcases hQ.2 with hv | hseedix
      · exact absurd (by rw [← hfsnd']; exact hv) h1
      · exact hseedix
    · exact hP e hold
  · intro e hemem
    simp at hemem


theorem bfsLoop_inv {G : Type} (shuffle : G → List Node → List Node × G)
    (nodes : List Node)
    (hsh : ∀ (g : G) (l : List Node), ((shuffle g l).1).Perm l)
    (P : DfsState G → Prop)
    (hrng : ∀ (s : DfsState G) (g : G), P s → P { s with rng := g })
    (hacc : ∀ (s : DfsState G) (current node : Node) (depth : ℕ),
      current ∈ nodes → node ∈ nodes → node.index ∉ s.visited →
      (∀ m ∈ s.midpoints,
        (m - (node.point + current.point) * (0.5 : ℝ)).length > MIN_SPACING * 0.8) →
      (∀ n ∈ nodes,
        (n.point - (node.point + current.point) * (0.5 : ℝ)).length > TUBE_RADIUS * 2.1) →
      P s →
      P (record_edge s depth node ⟨current.index, node.index⟩
          ((node.point + current.point) * (0.5 : ℝ)))) :
    ∀ (fuel : ℕ) (queue : List QueueItem),
      (∀ it ∈ queue, it.current ∈ nodes ∧ it.next ∈ nodes) →
      ∀ (s : DfsState G), P s → P (bfsLoop shuffle nodes fuel queue s) := by
  intro fuel
  induction fuel with
  | zero => intro q hq s h; simpa [bfsLoop] using h
  | succ n ih =>
    intro q hq s h
    match q with
    | [] => simpa [bfsLoop] using h
    | item :: rest =>
      have hrest : ∀ it ∈ rest, it.current ∈ nodes ∧ it.next ∈ nodes :=
        fun it hit => hq it (List.mem_cons_of_mem _ hit)
      have hcur := (hq item (List.mem_cons_self _ _)).1
      have hnext := (hq item (List.mem_cons_self _ _)).2
      simp only [bfsLoop]
      split_ifs with h1 h2 h3 h4
      · exact ih rest hrest s h
      · exact ih rest hrest s h
      · exact ih rest hrest s h
      · have hP1 := hacc s item.current item.next item.depth hcur hnext h1 h4.1 h4.2 h
        refine ih _ ?_ _ (hrng _ _ hP1)
        intro it hit
        simp only [enqueue_nearest] at hit
        rcases List.mem_append.mp hit with hin | hin
        · exact hrest it hin
        · rcases List.mem_map.mp hin with ⟨nd, hnd, rfl⟩
          exact ⟨hnext, mem_of_mem_get_nearest_k
            ((hsh _ (get_nearest_k nodes item.next 12)).mem_iff.mp hnd)⟩
      · exact ih rest hrest s h

/-- C6: in both traversal disciplines every accepted edge satisfied the
spacing predicate at the moment of acceptance: its midpoint is farther than
`MIN_SPACING * 0.8` from every previously recorded midpoint (hence the
final midpoint registry is pairwise separated by more than that threshold,
the registry being append-only), and farther than the clearance
`TUBE_RADIUS * 2.0` from every node point other than the edge's own two
endpoints (bfs in fact checks the stronger clearance `TUBE_RADIUS * 2.1`
against all nodes). -/
theorem accepted_edges_spacing {G : Type} (shuffle : G → List Node → List Node × G)
    (nodes : List Node) (hsh : ∀ (g : G) (l : List Node), ((shuffle g l).1).Perm l)
    (seed : Node) (hseed : seed ∈ nodes) (fuel : ℕ) (prior : V2) (depth : ℕ)
    (g : G) (mdi : ℕ × ℕ) :
    (let r := dfsGo shuffle nodes fuel prior seed depth ⟨g, ∅, ∅, [], mdi⟩
     r.midpoints.Pairwise (fun m m' => (m - m').length > MIN_SPACING * 0.8) ∧
     ∀ e ∈ r.edges, ∃ a ∈ nodes, ∃ b ∈ nodes, a.index = e.fst ∧ b.index = e.snd ∧
       ∀ n ∈ nodes, n.index ≠ e.fst → n.index ≠ e.snd →
         (n.point - (b.point + a.point) * (0.5 : ℝ)).length > TUBE_RADIUS * 2.0) ∧
    (let rb := bfs shuffle nodes fuel prior seed ⟨g, ∅, ∅, [], mdi⟩
     rb.midpoints.Pairwise (fun m m' => (m - m').length > MIN_SPACING * 0.8) ∧
     ∀ e ∈ rb.edges, ∃ a ∈ nodes, ∃ b ∈ nodes, a.index = e.fst ∧ b.index = e.snd ∧
       ∀ n ∈ nodes, n.index ≠ e.fst → n.index ≠ e.snd →
         (n.point - (b.point + a.point) * (0.5 : ℝ)).length > TUBE_RADIUS * 2.0) := by
  have hstep : ∀ (s : DfsState G) (current node : Node) (d : ℕ),
      current ∈ nodes → node ∈ nodes →
      (∀ m ∈ s.midpoints,
        (m - (node.point + current.point) * (0.5 : ℝ)).length > MIN_SPACING * 0.8) →
      (∀ n ∈ nodes, n.index = node.index ∨ n.index = current.index ∨
        (n.point - (node.point + current.point) * (0.5 : ℝ)).length > TUBE_RADIUS * 2.0) →
      (s.midpoints.Pairwise (fun m m' => (m - m').length > MIN_SPACING * 0.8) ∧
        ∀ e ∈ s.edges, ∃ a ∈ nodes, ∃ b ∈ nodes, a.index = e.fst ∧ b.index = e.snd ∧
          ∀ n ∈ nodes, n.index ≠ e.fst → n.index ≠ e.snd →
            (n.point - (b.point + a.point) * (0.5 : ℝ)).length > TUBE_RADIUS * 2.0) →
      ((record_edge s d node ⟨current.index, node.index⟩
          ((node.point + current.point) * (0.5 : ℝ))).midpoints.Pairwise
            (fun m m' => (m - m').length > MIN_SPACING * 0.8) ∧
        ∀ e ∈ (record_edge s d node ⟨current.index, node.index⟩
            ((node.point + current.point) * (0.5 : ℝ))).edges,
          ∃ a ∈ nodes, ∃ b ∈ nodes, a.index = e.fst ∧ b.index = e.snd ∧
          ∀ n ∈ nodes, n.index ≠ e.fst → n.index ≠ e.snd →
            (n.point - (b.point + a.point) * (0.5 : ℝ)).length > TUBE_RADIUS * 2.0) := by
    intro s current node d hcur hnode hmid hclear hP
    constructor
    · rw [record_edge_midpoints, List.pairwise_append]
      refine ⟨hP.1, List.pairwise_singleton _ _, ?_⟩
      intro m hm b hb
      simp only [List.mem_singleton] at hb
      subst hb
      exact hmid m hm
    · intro e hemem
      rw [record_edge_edges] at hemem
      rcases Finset.mem_insert.mp hemem with rfl | hold
      · refine ⟨current, hcur, node, hnode, rfl, rfl, ?_⟩
        intro n hn hne1 hne2
        rcases hclear n hn with hix | hix | hdist
        · exact absurd hix hne2
        · exact absurd hix hne1
        · exact hdist
      · exact hP.2 e hold
  constructor
  · refine dfsGo_master shuffle nodes hsh
      (fun s => s.midpoints.Pairwise (fun m m' => (m - m').length > MIN_SPACING * 0.8) ∧
        ∀ e ∈ s.edges, ∃ a ∈ nodes, ∃ b ∈ nodes, a.index = e.fst ∧ b.index = e.snd ∧
          ∀ n ∈ nodes, n.index ≠ e.fst → n.index ≠ e.snd →
            (n.point - (b.point + a.point) * (0.5 : ℝ)).length > TUBE_RADIUS * 2.0)
      (fun nd _ => nd ∈ nodes)
      (fun s g' hs => hs) (fun nd s s' _ h => h) ?_ fuel prior seed depth _ hseed ?_
    · intro s current node d hQ hnode h1 hmid hclear hP
      exact ⟨hstep s current node d hQ hnode hmid hclear hP, hnode⟩
    · refine ⟨List.Pairwise.nil, ?_⟩
      intro e hemem
      simp at hemem
  · show (bfs shuffle nodes fuel prior seed ⟨g, ∅, ∅, [], mdi⟩).midpoints.Pairwise _ ∧ _
    have h21 : ∀ (x : V2), x.length > TUBE_RADIUS * 2.1 → x.length > TUBE_RADIUS * 2.0 := by
      intro x hx
      have : TUBE_RADIUS * 2.0 < TUBE_RADIUS * 2.1 := by
        rw [TUBE_RADIUS_eq]; norm_num
      linarith
    refine bfsLoop_inv shuffle nodes hsh
      (fun s => s.midpoints.Pairwise (fun m m' => (m - m').length > MIN_SPACING * 0.8) ∧
        ∀ e ∈ s.edges, ∃ a ∈ nodes, ∃ b ∈ nodes, a.index = e.fst ∧ b.index = e.snd ∧
          ∀ n ∈ nodes, n.index ≠ e.fst → n.index ≠ e.snd →
            (n.point - (b.point + a.point) * (0.5 : ℝ)).length > TUBE_RADIUS * 2.0)
      (fun s g' hs => hs) ?_ fuel _ ?_ _ ?_
    · intro s current node d hcur hnode h1 hmid hclear hP
      refine hstep s current node d hcur hnode hmid ?_ hP
      intro n hn
      exact Or.inr (Or.inr (h21 _ (hclear n hn)))
    · intro it hit
      simp only [enqueue_nearest, List.nil_append] at hit
      rcases List.mem_map.mp hit with ⟨nd, hnd, rfl⟩
      exact ⟨hseed, mem_of_mem_get_nearest_k
        ((hsh _ (get_nearest_k nodes seed 12)).mem_iff.mp hnd)⟩
    · refine ⟨List.Pairwise.nil, ?_⟩
      intro e hemem
      simp at hemem


theorem dfsLoop_rel {G1 G2 : Type} (nodes : List Node) (R : G1 → G2 → Prop)
    (rec1 : V2 → Node → ℕ → DfsState G1 → DfsState G1)
    (rec2 : V2 → Node → ℕ → DfsState G2 → DfsState G2)
    (hrec : ∀ pr nd d s1 s2, StateRel R s1 s2 →
      StateRel R (rec1 pr nd d s1) (rec2 pr nd d s2)) :
    ∀ (l : List Node) (θ : ℝ) (current : Node) (depth : ℕ) s1 s2,
      StateRel R s1 s2 →
      StateRel R (dfsLoop nodes rec1 θ current depth l s1)
        (dfsLoop nodes rec2 θ current depth l s2) := by
  intro l
  induction l with
  | nil => intro θ c d s1 s2 h; simpa [dfsLoop] using h
  | cons node rest ih =>
    intro θ c d s1 s2 h
    obtain ⟨he, hv, hm, hd, hr⟩ := h
    simp only [dfsLoop]
    rw [← he, ← hv, ← hm]
    split_ifs with h1 h2 h3 h4
    · exact ih θ c d s1 s2 ⟨he, hv, hm, hd, hr⟩
    · exact ih θ c d s1 s2 ⟨he, hv, hm, hd, hr⟩
    · exact ih θ c d s1 s2 ⟨he, hv, hm, hd, hr⟩
    · refine ih θ c d _ _ (hrec _ _ _ _ _ ?_)
      refine ⟨?_, ?_, ?_, ?_, ?_⟩
      · simp [he]
      · simp [hv]
      · simp [hm]
      · simp [hd]
      · simpa using hr
    · exact ih θ c d s1 s2 ⟨he, hv, hm, hd, hr⟩

theorem dfsGo_rel {G1 G2 : Type} (sh1 : G1 → List Node → List Node × G1)
    (sh2 : G2 → List Node → List Node × G2) (R : G1 → G2 → Prop)
    (hR : ∀ g1 g2 l, R g1 g2 → (sh1 g1 l).1 = (sh2 g2 l).1 ∧ R (sh1 g1 l).2 (sh2 g2 l).2)
    (nodes : List Node) :
    ∀ (fuel : ℕ) (prior : V2) (current : Node) (depth : ℕ) s1 s2,
      StateRel R s1 s2 →
      StateRel R (dfsGo sh1 nodes fuel prior current depth s1)
        (dfsGo sh2 nodes fuel prior current depth s2) := by
  intro fuel
  induction fuel with
  | zero => intro _ _ _ s1 s2 h; simpa [dfsGo] using h
  | succ n ih =>
    intro prior current depth s1 s2 h
    obtain ⟨he, hv, hm, hd, hr⟩ := h
    simp only [dfsGo]
    have hq := hR s1.rng s2.rng (get_nearest_k nodes current 12) hr
    rw [← hq.1]
    exact dfsLoop_rel nodes R _ _ (fun pr nd d t1 t2 ht => ih pr nd d t1 t2 ht) _ _
      current depth _ _ ⟨he, hv, hm, hd, hq.2⟩

/-- C8: the growth engine is deterministic given a fixed random source: two
dfs runs over the same node set, seed, prior direction and initial
collections, driven by random sources that produce the same shuffle
sequence (formalized as a bisimulation `R` between the two source states
under which shuffles return equal lists), produce identical edge sets. -/
theorem dfs_deterministic {G1 G2 : Type} (sh1 : G1 → List Node → List Node × G1)
    (sh2 : G2 → List Node → List Node × G2) (R : G1 → G2 → Prop)
    (hR : ∀ g1 g2 l, R g1 g2 → (sh1 g1 l).1 = (sh2 g2 l).1 ∧ R (sh1 g1 l).2 (sh2 g2 l).2)
    (nodes : List Node) (fuel : ℕ) (prior : V2) (seed : Node) (depth : ℕ)
    (e0 : Finset Edge) (v0 : Finset ℕ) (m0 : List V2) (mdi : ℕ × ℕ)
    (g1 : G1) (g2 : G2) (hg : R g1 g2) :
    (dfsGo sh1 nodes fuel prior seed depth ⟨g1, e0, v0, m0, mdi⟩).edges =
      (dfsGo sh2 nodes fuel prior seed depth ⟨g2, e0, v0, m0, mdi⟩).edges :=
  (dfsGo_rel sh1 sh2 R hR nodes fuel prior seed depth _ _ ⟨rfl, rfl, rfl, rfl, hg⟩).1

/-- Witness for C8: instantiating both random sources with the
identity-shuffle source related by the total relation. -/
theorem dfs_deterministic_witness :
    (∀ (g1 g2 : Unit) (l : List Node), True →
      (idShuffle g1 l).1 = (idShuffle g2 l).1 ∧ True) ∧
    (dfsGo idShuffle [exN0] 1 ⟨0, 0⟩ exN0 0 ⟨(), ∅, ∅, [], (0, 0)⟩).edges =
      (dfsGo idShuffle [exN0] 1 ⟨0, 0⟩ exN0 0 ⟨(), ∅, ∅, [], (0, 0)⟩).edges :=
  ⟨fun _ _ _ _ => ⟨rfl, trivial⟩,
   dfs_deterministic idShuffle idShuffle (fun _ _ => True)
     (fun _ _ _ _ => ⟨rfl, trivial⟩) [exN0] 1 ⟨0, 0⟩ exN0 0 ∅ ∅ [] (0, 0) () () trivial⟩


/-! Evaluation helpers for concrete runs. -/

theorem idShuffle_perm : ∀ (g : Unit) (l : List Node), ((idShuffle g l).1).Perm l :=
  fun _ l => List.Perm.refl l

theorem dfsGo_succ {G : Type} (shuffle : G → List Node → List Node × G)
    (nodes : List Node) (fuel : ℕ) (prior : V2) (current : Node) (depth : ℕ)
    (s : DfsState G) :
    dfsGo shuffle nodes (fuel + 1) prior current depth s =
      dfsLoop nodes (dfsGo shuffle nodes fuel)
        ((current.point - prior).normalise).angle current depth
        (shuffle s.rng (get_nearest_k nodes current 12)).1
        { s with rng := (shuffle s.rng (get_nearest_k nodes current 12)).2 } := rfl

theorem angle_normalise_east {t : ℝ} (ht : 0 < t) :
    ((⟨t, 0⟩ : V2).normalise).angle = 0 := by
  rw [V2.normalise_pos_x ht, V2.angle_unit_x]

theorem gnk_single (seed : Node) : get_nearest_k [seed] seed 12 = [seed] := by
  simp only [get_nearest_k, List.insertionSort, List.orderedInsert_nil]
  exact List.take_of_length_le (by simp)

theorem not_pi_guard : ¬ ((0 : ℝ) > Real.pi * 0.6) := by
  have := Real.pi_pos
  intro h
  nlinarith

theorem dfsGo_skip_single {G : Type} (shuffle : G → List Node → List Node × G)
    (hsh : ∀ (g : G) (l : List Node), ((shuffle g l).1).Perm l) (seed : Node) :
    ∀ (fuel : ℕ) (prior : V2) (depth : ℕ) (s : DfsState G), seed.index ∈ s.visited →
      (dfsGo shuffle [seed] fuel prior seed depth s).edges = s.edges ∧
      (dfsGo shuffle [seed] fuel prior seed depth s).visited = s.visited ∧
      (dfsGo shuffle [seed] fuel prior seed depth s).midpoints = s.midpoints ∧
      (dfsGo shuffle [seed] fuel prior seed depth s).maxDepth = s.maxDepth := by
  intro fuel prior depth s hmem
  cases fuel with
  | zero => exact ⟨rfl, rfl, rfl, rfl⟩
  | succ n =>
    rw [dfsGo_succ]
    have hc : (shuffle s.rng (get_nearest_k [seed] seed 12)).1 = [seed] := by
      rw [gnk_single]
      exact List.perm_singleton.mp (hsh s.rng [seed])
    rw [hc]
    simp only [dfsLoop]
    rw [if_pos (show seed.index ∈
      ({ s with rng := (shuffle s.rng (get_nearest_k [seed] seed 12)).2 } :
        DfsState G).visited from hmem)]
    exact ⟨rfl, rfl, rfl, rfl⟩

/-- C2 (amended): a dfs growth run over a node set containing only the seed
terminates with the max-depth marker unchanged at its initial value, and an
edge set that is either empty or exactly the self-loop at the seed (the
seed is never pre-marked visited, so it may accept itself as its own
candidate; whether it does depends on the angle test against the prior
direction). -/
theorem dfs_single_node {G : Type} (shuffle : G → List Node → List Node × G)
    (hsh : ∀ (g : G) (l : List Node), ((shuffle g l).1).Perm l)
    (fuel : ℕ) (prior : V2) (seed : Node) (g : G) (mdi : ℕ × ℕ) :
    ((dfsGo shuffle [seed] fuel prior seed 0 ⟨g, ∅, ∅, [], mdi⟩).edges = ∅ ∨
      (dfsGo shuffle [seed] fuel prior seed 0 ⟨g, ∅, ∅, [], mdi⟩).edges =
        {(⟨seed.index, seed.index⟩ : Edge)}) ∧
    (dfsGo shuffle [seed] fuel prior seed 0 ⟨g, ∅, ∅, [], mdi⟩).maxDepth = mdi := by
  cases fuel with
  | zero => exact ⟨Or.inl rfl, rfl⟩
  | succ n =>
    rw [dfsGo_succ]
    have hc : (shuffle (⟨g, ∅, ∅, [], mdi⟩ : DfsState G).rng
        (get_nearest_k [seed] seed 12)).1 = [seed] := by
      rw [gnk_single]
      exact List.perm_singleton.mp (hsh _ [seed])
    rw [hc]
    simp only [dfsLoop]
    rw [if_neg (show ¬ seed.index ∈
      ({ (⟨g, ∅, ∅, [], mdi⟩ : DfsState G) with
          rng := (shuffle (⟨g, ∅, ∅, [], mdi⟩ : DfsState G).rng
            (get_nearest_k [seed] seed 12)).2 } : DfsState G).visited from by simp)]
    split_ifs with h2 h3 h4
    · exact ⟨Or.inl rfl, rfl⟩
    · exact ⟨Or.inl rfl, rfl⟩
    · have hskip := dfsGo_skip_single shuffle hsh seed n seed.point (0 + 1) _
        (show seed.index ∈ (record_edge
          ({ (⟨g, ∅, ∅, [], mdi⟩ : DfsState G) with
              rng := (shuffle (⟨g, ∅, ∅, [], mdi⟩ : DfsState G).rng
                (get_nearest_k [seed] seed 12)).2 } : DfsState G) 0 seed
          ⟨seed.index, seed.index⟩
          ((seed.point + seed.point) * (0.5 : ℝ))).visited from by simp)
      refine ⟨Or.inr ?_, ?_⟩
      · rw [hskip.1]
        rfl
      · rw [hskip.2.2.2]
        show (if 0 > mdi.1 then ((0 : ℕ), seed.index) else mdi) = mdi
        rw [if_neg (by omega)]
    · exact ⟨Or.inl rfl, rfl⟩

/-- Witness for C2 (amended) at a concrete single-node input. -/
theorem dfs_single_node_witness :
    (∀ (g : Unit) (l : List Node), ((idShuffle g l).1).Perm l) ∧
    (((dfsGo idShuffle [exN0] 1 ⟨0, 0⟩ exN0 0 ⟨(), ∅, ∅, [], (0, 0)⟩).edges = ∅ ∨
      (dfsGo idShuffle [exN0] 1 ⟨0, 0⟩ exN0 0 ⟨(), ∅, ∅, [], (0, 0)⟩).edges =
        {(⟨exN0.index, exN0.index⟩ : Edge)}) ∧
    (dfsGo idShuffle [exN0] 1 ⟨0, 0⟩ exN0 0 ⟨(), ∅, ∅, [], (0, 0)⟩).maxDepth = (0, 0)) :=
  ⟨fun _ l => List.Perm.refl l,
   dfs_single_node idShuffle (fun _ l => List.Perm.refl l) 1 ⟨0, 0⟩ exN0 () (0, 0)⟩


/-- C2 counterexample: with the single node at the origin (identity 0) and
prior point `(-10, 0)` (so the incoming direction has angle 0, as in
the setup in `main`), the run accepts the self-loop `Edge(0, 0)` — the seed is
its own nearest unvisited candidate and passes every test — so the edge set
is not empty. -/
theorem dfs_single_node_counterexample :
    (dfsGo idShuffle [(⟨⟨0, 0⟩, 0⟩ : Node)] 2 ⟨-10, 0⟩ ⟨⟨0, 0⟩, 0⟩ 0
      ⟨(), ∅, ∅, [], (0, 0)⟩).edges ≠ ∅ := by
  rw [show (2 : ℕ) = 1 + 1 from rfl, dfsGo_succ]
  have hc : (idShuffle (⟨(), ∅, ∅, [], (0, 0)⟩ : DfsState Unit).rng
      (get_nearest_k [(⟨⟨0, 0⟩, 0⟩ : Node)] ⟨⟨0, 0⟩, 0⟩ 12)).1 =
        [(⟨⟨0, 0⟩, 0⟩ : Node)] := gnk_single _
  rw [hc]
  have hθ : (((⟨⟨0, 0⟩, 0⟩ : Node).point - (⟨-10, 0⟩ : V2)).normalise).angle = 0 := by
    have hsub : (⟨⟨0, 0⟩, 0⟩ : Node).point - (⟨-10, 0⟩ : V2) = ⟨10, 0⟩ := by
      ext <;> simp <;> norm_num
    rw [hsub]
    exact angle_normalise_east (by norm_num)
  rw [hθ]
  simp only [dfsLoop]
  split_ifs with h1 h2 h3 h4
  · exact absurd h1 (by simp)
  · have hz : (⟨⟨0, 0⟩, 0⟩ : Node).point - (⟨⟨0, 0⟩, 0⟩ : Node).point = (⟨0, 0⟩ : V2) := by
      ext <;> simp
    rw [hz, V2.normalise_zero, V2.angle_zero, radian_diff_zero] at h2
    exact absurd h2 not_pi_guard
  · simp only [edge_intersects] at h3
    simp at h3
  · have hskip := dfsGo_skip_single idShuffle idShuffle_perm (⟨⟨0, 0⟩, 0⟩ : Node) 1
      ⟨0, 0⟩ (0 + 1)
      (record_edge
        ⟨(idShuffle ()
            (get_nearest_k [(⟨⟨0, 0⟩, 0⟩ : Node)] ⟨⟨0, 0⟩, 0⟩ 12)).2,
          ∅, ∅, [], (0, 0)⟩
        0 (⟨⟨0, 0⟩, 0⟩ : Node) (⟨0, 0⟩ : Edge)
        (((⟨0, 0⟩ : V2) + (⟨0, 0⟩ : V2)) * (0.5 : ℝ))) (by simp)
    rw [hskip.1]
    rw [record_edge_edges]
    exact Finset.insert_ne_empty _ _
  · exfalso
    apply h4
    constructor
    · intro m hm
      simp at hm
    · intro n hn
      simp only [List.mem_singleton] at hn
      subst hn
      left
      rfl


theorem gnk_ex1 : get_nearest_k exNodes exN1 12 = [exN1, exN0] := by
  simp only [get_nearest_k, exNodes, List.insertionSort, List.orderedInsert_nil,
    List.orderedInsert]
  rw [if_neg (by
    simp only [distLe, V2.length_squared, V2.sub_x, V2.sub_y, exN0, exN1]
    norm_num)]
  exact List.take_of_length_le (by simp)

theorem gnk_ex0 : get_nearest_k exNodes exN0 12 = [exN0, exN1] := by
  simp only [get_nearest_k, exNodes, List.insertionSort, List.orderedInsert_nil,
    List.orderedInsert]
  rw [if_pos (by
    simp only [distLe, V2.length_squared, V2.sub_x, V2.sub_y, exN0, exN1]
    norm_num)]
  exact List.take_of_length_le (by simp)

theorem shrink_displace_degenerate (p : V2) (radians w sf : ℝ) :
    shrink (displace_by p p radians w) sf = (p, p) := by
  simp only [displace_by, V2.sub_self_eq_zero, V2.normalise_zero]
  simp only [shrink, V2.lerp, Prod.mk.injEq]
  constructor <;> (ext <;> simp <;> ring)

theorem iww_degenerate_snd (a b p : V2) (w sf : ℝ) :
    ¬ intersection_with_width a b p p w sf := by
  rintro ⟨pq, hpq, rs, hrs, hint⟩
  rw [shrink_displace_degenerate, shrink_displace_degenerate] at hrs
  simp only [List.mem_cons, List.not_mem_nil, or_false, or_self] at hrs
  subst hrs
  obtain ⟨h1, -⟩ := hint
  have hz : ∀ q : V2, orient p p q = 0 := by
    intro q
    simp [orient, cross, V2.sub_self_eq_zero]
  rw [hz pq.1, hz pq.2] at h1
  norm_num at h1

theorem not_edge_intersects_selfloop (e : Edge) (i : ℕ) (nodes : List Node) :
    ¬ edge_intersects e {(⟨i, i⟩ : Edge)} nodes := by
  rintro ⟨e', he', hint⟩
  rw [Finset.mem_singleton] at he'
  subst he'
  exact iww_degenerate_snd _ _ _ _ _ hint

theorem exRun_inner (prior : V2) (depth : ℕ) (s : DfsState Unit)
    (hv0 : (0 : ℕ) ∈ s.visited) (hv1 : (1 : ℕ) ∈ s.visited) :
    dfsGo idShuffle exNodes 1 prior exN0 depth s = s := by
  rw [dfsGo_succ]
  have hc : (idShuffle s.rng (get_nearest_k exNodes exN0 12)).1 = [exN0, exN1] :=
    gnk_ex0
  rw [hc]
  simp only [dfsLoop]
  rw [if_pos (show exN0.index ∈
      ({ s with rng := (idShuffle s.rng (get_nearest_k exNodes exN0 12)).2 } :
        DfsState Unit).visited from hv0)]
  rw [if_pos (show exN1.index ∈
      ({ s with rng := (idShuffle s.rng (get_nearest_k exNodes exN0 12)).2 } :
        DfsState Unit).visited from hv1)]


theorem exRun_mid :
    dfsGo idShuffle exNodes 2 exN1.point exN1 1
      ⟨(), {(⟨1, 1⟩ : Edge)}, {1}, [(exN1.point + exN1.point) * (0.5 : ℝ)], (0, 0)⟩ =
    ⟨(), insert (⟨1, 0⟩ : Edge) {(⟨1, 1⟩ : Edge)}, insert 0 {1},
      [(exN1.point + exN1.point) * (0.5 : ℝ), (exN0.point + exN1.point) * (0.5 : ℝ)],
      (1, 0)⟩ := by
  rw [show (2 : ℕ) = 1 + 1 from rfl, dfsGo_succ]
  have hc : (idShuffle
      (⟨(), {(⟨1, 1⟩ : Edge)}, {1}, [(exN1.point + exN1.point) * (0.5 : ℝ)],
        (0, 0)⟩ : DfsState Unit).rng (get_nearest_k exNodes exN1 12)).1 =
      [exN1, exN0] := gnk_ex1
  rw [hc]
  have hsub20 : exN0.point - exN1.point = (⟨20, 0⟩ : V2) := by
    ext <;> simp [exN0, exN1]
  have hn20 : (⟨20, 0⟩ : V2).normalise = ⟨1, 0⟩ := V2.normalise_pos_x (by norm_num)
  simp only [dfsLoop, V2.sub_self_eq_zero, V2.normalise_zero, V2.angle_zero,
    hsub20, hn20, V2.angle_unit_x, radian_diff_zero]
  rw [if_pos (show exN1.index ∈ ({1} : Finset ℕ) by simp [exN1])]
  rw [if_neg (show ¬ exN0.index ∈ ({1} : Finset ℕ) by simp [exN0])]
  rw [if_neg not_pi_guard]
  rw [if_neg (not_edge_intersects_selfloop ⟨exN1.index, exN0.index⟩ 1 exNodes)]
  rw [if_pos]
  · rw [exRun_inner exN1.point (1 + 1)
      (record_edge
        ⟨(idShuffle () (get_nearest_k exNodes exN1 12)).2, {(⟨1, 1⟩ : Edge)}, {1},
          [(exN1.point + exN1.point) * (0.5 : ℝ)], (0, 0)⟩
        1 exN0 ⟨exN1.index, exN0.index⟩ ((exN0.point + exN1.point) * (0.5 : ℝ)))
      (by simp [exN0]) (by simp)]
    rfl
  · constructor
    · intro m hm
      simp only [List.mem_singleton] at hm
      subst hm
      apply V2.lt_length (by rw [MIN_SPACING_eq]; norm_num)
      simp only [V2.length_squared, V2.sub_x, V2.sub_y, V2.add_x, V2.add_y,
        V2.smul_x, V2.smul_y, MIN_SPACING_eq, exN0, exN1]
      norm_num
    · intro n hn
      simp only [exNodes, List.mem_cons, List.not_mem_nil, or_false] at hn
      rcases hn with rfl | rfl
      · left; rfl
      · right; left; rfl


theorem exRun_edges :
    (dfsGo idShuffle exNodes 3 ⟨-10, 0⟩ exN1 0 ⟨(), ∅, ∅, [], (0, 0)⟩).edges =
      insert (⟨1, 0⟩ : Edge) {(⟨1, 1⟩ : Edge)} := by
  rw [show (3 : ℕ) = 2 + 1 from rfl, dfsGo_succ]
  have hc : (idShuffle (⟨(), ∅, ∅, [], (0, 0)⟩ : DfsState Unit).rng
      (get_nearest_k exNodes exN1 12)).1 = [exN1, exN0] := gnk_ex1
  rw [hc]
  have hsub10 : exN1.point - (⟨-10, 0⟩ : V2) = ⟨10, 0⟩ := by
    ext <;> simp [exN1] <;> norm_num
  have hn10 : (⟨10, 0⟩ : V2).normalise = ⟨1, 0⟩ := V2.normalise_pos_x (by norm_num)
  simp only [dfsLoop, hsub10, hn10, V2.angle_unit_x, V2.sub_self_eq_zero,
    V2.normalise_zero, V2.angle_zero, radian_diff_zero]
  rw [if_neg (show ¬ exN1.index ∈ (∅ : Finset ℕ) by simp)]
  rw [if_neg not_pi_guard]
  rw [if_neg (show ¬ edge_intersects ⟨exN1.index, exN1.index⟩ ∅ exNodes by
    simp [edge_intersects])]
  rw [if_pos]
  · have hrec : record_edge
        (⟨(idShuffle () (get_nearest_k exNodes exN1 12)).2, ∅, ∅, [],
          (0, 0)⟩ : DfsState Unit)
        0 exN1 ⟨exN1.index, exN1.index⟩ ((exN1.point + exN1.point) * (0.5 : ℝ)) =
        ⟨(), {(⟨1, 1⟩ : Edge)}, {1}, [(exN1.point + exN1.point) * (0.5 : ℝ)],
          (0, 0)⟩ := rfl
    simp only [show (0 : ℕ) + 1 = 1 from rfl, hrec, exRun_mid]
    rw [if_pos (show exN0.index ∈ insert 0 ({1} : Finset ℕ) by simp [exN0])]
  · constructor
    · intro m hm
      simp at hm
    · intro n hn
      simp only [exNodes, List.mem_cons, List.not_mem_nil, or_false] at hn
      rcases hn with rfl | rfl
      · right; right
        apply V2.lt_length (by rw [TUBE_RADIUS_eq]; norm_num)
        simp only [V2.length_squared, V2.sub_x, V2.sub_y, V2.add_x, V2.add_y,
          V2.smul_x, V2.smul_y, TUBE_RADIUS_eq, exN0, exN1]
        norm_num
      · left; rfl


/-- C1 counterexample: a concrete dfs growth run (identity 0 at `(20, 0)`
and identity 1 at the origin; seed node 1, prior `(-10, 0)`, identity
shuffle, empty initial state) records the self-loop `Edge(1, 1)`: the seed
is its own first nearest unvisited candidate and passes every acceptance
test, so the claim `u ≠ v` fails on the produced edge set. -/
theorem dfs_selfloop_counterexample :
    (⟨1, 1⟩ : Edge) ∈
      (dfsGo idShuffle exNodes 3 ⟨-10, 0⟩ exN1 0 ⟨(), ∅, ∅, [], (0, 0)⟩).edges := by
  rw [exRun_edges]
  decide

/-- C9 counterexample: the same concrete run stores the edge from node 1 to
node 0 as `Edge(1, 0)` — in traversal direction, higher identity first —
and not as the canonicalized `Edge(0, 1)`. -/
theorem dfs_no_canonicalization_counterexample :
    (⟨1, 0⟩ : Edge) ∈
      (dfsGo idShuffle exNodes 3 ⟨-10, 0⟩ exN1 0 ⟨(), ∅, ∅, [], (0, 0)⟩).edges ∧
    (⟨0, 1⟩ : Edge) ∉
      (dfsGo idShuffle exNodes 3 ⟨-10, 0⟩ exN1 0 ⟨(), ∅, ∅, [], (0, 0)⟩).edges := by
  rw [exRun_edges]
  exact ⟨by decide, by decide⟩

/-- Witness for C1 (amended) at a concrete one-node input. -/
theorem dfs_edge_endpoints_witness :
    (∀ (g : Unit) (l : List Node), ((idShuffle g l).1).Perm l) ∧
    exN0 ∈ [exN0] ∧
    ∀ e ∈ (dfsGo idShuffle [exN0] 1 ⟨0, 0⟩ exN0 0 ⟨(), ∅, ∅, [], (0, 0)⟩).edges,
      (∃ a ∈ [exN0], a.index = e.fst) ∧ (∃ b ∈ [exN0], b.index = e.snd) ∧
      (e.fst = e.snd → e.fst = exN0.index) :=
  ⟨fun _ l => List.Perm.refl l, List.mem_singleton.mpr rfl,
   dfs_edge_endpoints idShuffle [exN0] (fun _ l => List.Perm.refl l) 1 ⟨0, 0⟩ exN0 0
     () (0, 0) (List.mem_singleton.mpr rfl)⟩

/-- Witness for C6 at a concrete one-node input. -/
theorem accepted_edges_spacing_witness :
    (∀ (g : Unit) (l : List Node), ((idShuffle g l).1).Perm l) ∧
    exN0 ∈ [exN0] ∧
    ((let r := dfsGo idShuffle [exN0] 1 ⟨0, 0⟩ exN0 0 ⟨(), ∅, ∅, [], (0, 0)⟩
      r.midpoints.Pairwise (fun m m' => (m - m').length > MIN_SPACING * 0.8) ∧
      ∀ e ∈ r.edges, ∃ a ∈ [exN0], ∃ b ∈ [exN0], a.index = e.fst ∧ b.index = e.snd ∧
        ∀ n ∈ [exN0], n.index ≠ e.fst → n.index ≠ e.snd →
          (n.point - (b.point + a.point) * (0.5 : ℝ)).length > TUBE_RADIUS * 2.0) ∧
     (let rb := bfs idShuffle [exN0] 1 ⟨0, 0⟩ exN0 ⟨(), ∅, ∅, [], (0, 0)⟩
      rb.midpoints.Pairwise (fun m m' => (m - m').length > MIN_SPACING * 0.8) ∧
      ∀ e ∈ rb.edges, ∃ a ∈ [exN0], ∃ b ∈ [exN0], a.index = e.fst ∧ b.index = e.snd ∧
        ∀ n ∈ [exN0], n.index ≠ e.fst → n.index ≠ e.snd →
          (n.point - (b.point + a.point) * (0.5 : ℝ)).length > TUBE_RADIUS * 2.0)) :=
  ⟨fun _ l => List.Perm.refl l, List.mem_singleton.mpr rfl,
   accepted_edges_spacing idShuffle [exN0] (fun _ l => List.Perm.refl l) exN0
     (List.mem_singleton.mpr rfl) 1 ⟨0, 0⟩ 0 () (0, 0)⟩

end Lemmas

end Maze
